import Mathlib

/-!
Verification of the loss-computation core of `CoreAudioML/training.py`.

Numerical semantics: PyTorch tensors of floats are embedded as rational-valued
arrays (exact arithmetic).  A rank-3 signal of shape (time, batch, channel) is
embedded as a time-major `List (List ℚ)` with the batch and channel axes
flattened into the inner row (the metrics reduce over them jointly in the
source, so only the time axis needs to be kept separate).  `torch.mean` over a
whole tensor is sum / element-count; this embedding is faithful on nonempty
tensors (torch returns NaN on empty ones, where rational division returns 0,
so theorems about means carry nonemptiness hypotheses).
-/

namespace AudioDL

/-- The fixed epsilon `0.00001` used by every loss class in `training.py`. -/
def eps : ℚ := 1 / 100000

/-- `torch.mean` over all elements of a flat array: sum divided by length. -/
def qmean (l : List ℚ) : ℚ := l.sum / l.length

/-- A (time × batch·channel) signal: time-major rows of samples. -/
abbrev Signal := List (List ℚ)

/-- The signal has `T` time steps, each a row of `B` (batch·channel) samples. -/
def HasShape (s : Signal) (T B : ℕ) : Prop :=
  s.length = T ∧ ∀ r ∈ s, r.length = B

instance (s : Signal) (T B : ℕ) : Decidable (HasShape s T B) := by
  unfold HasShape; infer_instance

/-- Element `(i, j)` of a signal (0 outside the range). -/
def getE (s : Signal) (i j : ℕ) : ℚ := (s.getD i []).getD j 0

/-- Elementwise `torch.add(t, -o)` on equal-shaped signals. -/
def eltSub (t o : Signal) : Signal :=
  List.zipWith (fun tr orow => List.zipWith (fun a b => a + -b) tr orow) t o

/-- Elementwise `torch.pow(s, 2)`. -/
def eltSq (s : Signal) : Signal := s.map (List.map (fun a => a ^ 2))

/-- Flattening of a signal into the list of all its elements. -/
def flatten (s : Signal) : List ℚ := s.flatten

/-- `torch.mean` over the whole tensor. -/
def tmean (s : Signal) : ℚ := qmean (flatten s)

/-- `ESRLoss.forward`: `mean((target - output)^2) / (mean(target^2) + eps)`,
translated line by line from the source (`torch.add(target, -output)`,
`torch.pow(_, 2)`, `torch.mean`, energy, `torch.div`). -/
def esrLoss (output target : Signal) : ℚ :=
  let loss := eltSub target output
  let loss2 := eltSq loss
  let lossM := tmean loss2
  let energy := tmean (eltSq target) + eps
  lossM / energy

/-- Number of (batch·channel) positions, read off the first row — the width of
a rectangular tensor. -/
def width (s : Signal) : ℕ := (s.headD []).length

/-- `torch.mean(s, 0)`: reduce the time axis, producing one mean per
(batch·channel) position. -/
def meanDim0 (s : Signal) : List ℚ :=
  (List.range (width s)).map (fun j => qmean (s.map (fun r => r.getD j 0)))

/-- `DCLoss.forward`: squared difference of the time-reduced means, averaged,
normalized by the energy of the full (unreduced) target plus eps. -/
def dcLoss (output target : Signal) : ℚ :=
  let diff := List.zipWith (fun a b => a + -b) (meanDim0 target) (meanDim0 output)
  let num := qmean (diff.map (fun a => a ^ 2))
  let energy := tmean (eltSq target) + eps
  num / energy

/-- Scaling a signal by a constant `c` (elementwise). -/
def scale (c : ℚ) (s : Signal) : Signal := s.map (List.map (fun a => c * a))

/-- The ESR numerator `mean((target - output)^2)` as computed by the source. -/
def esrNum (output target : Signal) : ℚ := tmean (eltSq (eltSub target output))

/-- The ESR energy term `mean(target^2)` as computed by the source. -/
def esrEnergy (target : Signal) : ℚ := tmean (eltSq target)

/-! ### List-sum to Finset-sum conversion lemmas -/

lemma sum_eq_range_getD (l : List ℚ) :
    l.sum = ∑ i ∈ Finset.range l.length, l.getD i 0 := by
  induction l with
  | nil => simp
  | cons a tl ih =>
    simp only [List.sum_cons, List.length_cons, Finset.sum_range_succ',
      List.getD_cons_succ, List.getD_cons_zero, ih]
    ring

lemma getD_map' {α β : Type _} (f : α → β) (l : List α) (i : ℕ) (d : β) (da : α)
    (h : i < l.length) :
    (l.map f).getD i d = f (l.getD i da) := by
  have hl : i < (l.map f).length := by simpa using h
  rw [List.getD_eq_getElem _ _ hl, List.getD_eq_getElem _ _ h, List.getElem_map]

lemma getD_zipWith' {α β γ : Type _} (f : α → β → γ) (a : List α) (b : List β)
    (i : ℕ) (d : γ) (da : α) (db : β) (ha : i < a.length) (hb : i < b.length) :
    (List.zipWith f a b).getD i d = f (a.getD i da) (b.getD i db) := by
  have hl : i < (List.zipWith f a b).length := by
    rw [List.length_zipWith]; exact lt_min ha hb
  rw [List.getD_eq_getElem _ _ hl, List.getD_eq_getElem _ _ ha,
    List.getD_eq_getElem _ _ hb, List.getElem_zipWith]

lemma sum_rows (rows : List (List ℚ)) (B : ℕ) (h : ∀ r ∈ rows, r.length = B) :
    rows.flatten.sum
      = ∑ i ∈ Finset.range rows.length, ∑ j ∈ Finset.range B,
          (rows.getD i []).getD j 0 := by
  induction rows with
  | nil => simp
  | cons r rs ih =>
    have hr : r.length = B := h r (List.mem_cons_self ..)
    have hrs : ∀ x ∈ rs, x.length = B := fun x hx => h x (List.mem_cons_of_mem _ hx)
    simp only [List.flatten_cons, List.sum_append, List.length_cons,
      Finset.sum_range_succ', List.getD_cons_succ, List.getD_cons_zero, ih hrs]
    rw [sum_eq_range_getD r, hr]
    ring

lemma length_flatten_shape (rows : List (List ℚ)) (B : ℕ)
    (h : ∀ r ∈ rows, r.length = B) :
    rows.flatten.length = rows.length * B := by
  induction rows with
  | nil => simp
  | cons r rs ih =>
    have hr : r.length = B := h r (List.mem_cons_self ..)
    have hrs : ∀ x ∈ rs, x.length = B := fun x hx => h x (List.mem_cons_of_mem _ hx)
    simp only [List.flatten_cons, List.length_append, List.length_cons, hr, ih hrs]
    ring

lemma rows_zip2_shape (f : ℚ → ℚ → ℚ) {t o : Signal} {T B : ℕ}
    (ht : HasShape t T B) (ho : HasShape o T B) :
    ∀ r ∈ List.zipWith (fun tr orow => List.zipWith f tr orow) t o, r.length = B := by
  intro r hr
  obtain ⟨i, hi, rfl⟩ := List.mem_iff_getElem.mp hr
  rw [List.getElem_zipWith, List.length_zipWith]
  have h1 : i < t.length := by
    rw [List.length_zipWith] at hi; exact lt_of_lt_of_le hi (min_le_left _ _)
  have h2 : i < o.length := by
    rw [List.length_zipWith] at hi; exact lt_of_lt_of_le hi (min_le_right _ _)
  rw [ht.2 _ (List.getElem_mem h1), ho.2 _ (List.getElem_mem h2), min_self]

lemma sum_flatten_zip2 (f : ℚ → ℚ → ℚ) (t o : Signal) (T B : ℕ)
    (ht : HasShape t T B) (ho : HasShape o T B) :
    (flatten (List.zipWith (fun tr orow => List.zipWith f tr orow) t o)).sum
      = ∑ i ∈ Finset.range T, ∑ j ∈ Finset.range B, f (getE t i j) (getE o i j) := by
  have hB := rows_zip2_shape f ht ho
  have hlen : (List.zipWith (fun tr orow => List.zipWith f tr orow) t o).length = T := by
    rw [List.length_zipWith, ht.1, ho.1, min_self]
  rw [flatten, sum_rows _ B hB, hlen]
  refine Finset.sum_congr rfl fun i hi => Finset.sum_congr rfl fun j hj => ?_
  rw [Finset.mem_range] at hi hj
  have hit : i < t.length := ht.1 ▸ hi
  have hio : i < o.length := ho.1 ▸ hi
  rw [getD_zipWith' _ t o i [] [] [] hit hio]
  have h1 : j < (t.getD i []).length := by
    rw [List.getD_eq_getElem _ _ hit, ht.2 _ (List.getElem_mem hit)]; exact hj
  have h2 : j < (o.getD i []).length := by
    rw [List.getD_eq_getElem _ _ hio, ho.2 _ (List.getElem_mem hio)]; exact hj
  rw [getD_zipWith' f _ _ j 0 0 0 h1 h2]
  rfl

lemma length_flatten_zip2 (f : ℚ → ℚ → ℚ) (t o : Signal) (T B : ℕ)
    (ht : HasShape t T B) (ho : HasShape o T B) :
    (flatten (List.zipWith (fun tr orow => List.zipWith f tr orow) t o)).length
      = T * B := by
  rw [flatten, length_flatten_shape _ B (rows_zip2_shape f ht ho),
    List.length_zipWith, ht.1, ho.1, min_self]

lemma rows_map_shape (g : ℚ → ℚ) {t : Signal} {T B : ℕ} (ht : HasShape t T B) :
    ∀ r ∈ t.map (List.map g), r.length = B := by
  intro r hr
  obtain ⟨x, hx, rfl⟩ := List.mem_map.mp hr
  rw [List.length_map]
  exact ht.2 x hx

lemma sum_flatten_map (g : ℚ → ℚ) (t : Signal) (T B : ℕ) (ht : HasShape t T B) :
    (flatten (t.map (List.map g))).sum
      = ∑ i ∈ Finset.range T, ∑ j ∈ Finset.range B, g (getE t i j) := by
  have hB := rows_map_shape g ht
  have hlen : (t.map (List.map g)).length = T := by rw [List.length_map, ht.1]
  rw [flatten, sum_rows _ B hB, hlen]
  refine Finset.sum_congr rfl fun i hi => Finset.sum_congr rfl fun j hj => ?_
  rw [Finset.mem_range] at hi hj
  have hit : i < t.length := ht.1 ▸ hi
  rw [getD_map' _ t i [] [] hit]
  have h1 : j < (t.getD i []).length := by
    rw [List.getD_eq_getElem _ _ hit, ht.2 _ (List.getElem_mem hit)]; exact hj
  rw [getD_map' g _ j 0 0 h1]
  rfl

lemma length_flatten_map (g : ℚ → ℚ) (t : Signal) (T B : ℕ) (ht : HasShape t T B) :
    (flatten (t.map (List.map g))).length = T * B := by
  rw [flatten, length_flatten_shape _ B (rows_map_shape g ht), List.length_map, ht.1]

lemma eltSq_eltSub (t o : Signal) :
    eltSq (eltSub t o)
      = List.zipWith (fun tr orow => List.zipWith (fun a b => (a + -b) ^ 2) tr orow) t o := by
  unfold eltSq eltSub
  rw [List.map_zipWith]
  congr 1
  funext tr orow
  rw [List.map_zipWith]

lemma energy_eq {t : Signal} {T B : ℕ} (ht : HasShape t T B) :
    tmean (eltSq t)
      = (∑ i ∈ Finset.range T, ∑ j ∈ Finset.range B, getE t i j ^ 2) / ((T : ℚ) * B) := by
  unfold tmean qmean eltSq
  rw [sum_flatten_map _ _ _ _ ht, length_flatten_map _ _ _ _ ht]
  norm_cast

lemma width_eq {s : Signal} {T B : ℕ} (hs : HasShape s T B) (hT : 0 < T) :
    width s = B := by
  cases s with
  | nil =>
    exfalso
    rw [← hs.1] at hT
    exact Nat.lt_irrefl 0 hT
  | cons r rs => exact hs.2 r (List.mem_cons_self ..)

lemma colMean_eq {s : Signal} {T B : ℕ} (hs : HasShape s T B) (j : ℕ) :
    qmean (s.map (fun r => r.getD j 0))
      = (∑ i ∈ Finset.range T, getE s i j) / (T : ℚ) := by
  unfold qmean
  rw [sum_eq_range_getD]
  simp only [List.length_map, hs.1]
  congr 1
  refine Finset.sum_congr rfl fun i hi => ?_
  rw [getD_map' _ s i 0 [] (hs.1 ▸ Finset.mem_range.mp hi)]
  rfl

/-! ### C1: the ESR formula -/

/-- C1: `ESRLoss.forward` returns exactly
`mean((target - output)^2) / (mean(target^2) + 1e-5)`, the mean taken jointly
over all (time, batch, channel) elements of the tensors. -/
theorem esr_formula (output target : Signal) (T B : ℕ)
    (ho : HasShape output T B) (ht : HasShape target T B) :
    esrLoss output target =
      ((∑ i ∈ Finset.range T, ∑ j ∈ Finset.range B,
          (getE target i j - getE output i j) ^ 2) / ((T : ℚ) * B))
        / ((∑ i ∈ Finset.range T, ∑ j ∈ Finset.range B, getE target i j ^ 2)
            / ((T : ℚ) * B) + eps) := by
  have hnum : tmean (eltSq (eltSub target output))
      = (∑ i ∈ Finset.range T, ∑ j ∈ Finset.range B,
          (getE target i j - getE output i j) ^ 2) / ((T : ℚ) * B) := by
    unfold tmean qmean
    rw [eltSq_eltSub, sum_flatten_zip2 _ _ _ _ _ ht ho,
      length_flatten_zip2 _ _ _ _ _ ht ho, Nat.cast_mul]
    congr 1
    refine Finset.sum_congr rfl fun i _ => Finset.sum_congr rfl fun j _ => ?_
    ring
  show tmean (eltSq (eltSub target output)) / (tmean (eltSq target) + eps) = _
  rw [hnum, energy_eq ht]

/-- Witness: `esr_formula` evaluated on a concrete 2×2 signal pair. -/
theorem esr_formula_witness :
    esrLoss [[1, 2], [3, 4]] [[5, 6], [7, 8]] =
      ((∑ i ∈ Finset.range 2, ∑ j ∈ Finset.range 2,
          (getE [[5, 6], [7, 8]] i j - getE [[1, 2], [3, 4]] i j) ^ 2) / ((2 : ℚ) * 2))
        / ((∑ i ∈ Finset.range 2, ∑ j ∈ Finset.range 2, getE [[5, 6], [7, 8]] i j ^ 2)
            / ((2 : ℚ) * 2) + eps) :=
  esr_formula [[1, 2], [3, 4]] [[5, 6], [7, 8]] 2 2 (by decide) (by decide)

/-! ### C2: the DC formula -/

/-- C2: `DCLoss.forward` returns exactly
`mean((mean_over_time(target) - mean_over_time(output))^2) / (mean(target^2) + 1e-5)`:
the numerator averages, over the (batch, channel) positions, the squared
differences of the per-position time-means, and the denominator uses the full
unreduced target tensor with the same epsilon. -/
theorem dc_formula (output target : Signal) (T B : ℕ)
    (ho : HasShape output T B) (ht : HasShape target T B) (hT : 0 < T) :
    dcLoss output target =
      ((∑ j ∈ Finset.range B,
          ((∑ i ∈ Finset.range T, getE target i j) / (T : ℚ)
            - (∑ i ∈ Finset.range T, getE output i j) / (T : ℚ)) ^ 2) / (B : ℚ))
        / ((∑ i ∈ Finset.range T, ∑ j ∈ Finset.range B, getE target i j ^ 2)
            / ((T : ℚ) * B) + eps) := by
  have hwt : width target = B := width_eq ht hT
  have hwo : width output = B := width_eq ho hT
  have hnum : qmean ((List.zipWith (fun a b => a + -b)
        (meanDim0 target) (meanDim0 output)).map (fun a => a ^ 2))
      = (∑ j ∈ Finset.range B,
          ((∑ i ∈ Finset.range T, getE target i j) / (T : ℚ)
            - (∑ i ∈ Finset.range T, getE output i j) / (T : ℚ)) ^ 2) / (B : ℚ) := by
    have hlt : (meanDim0 target).length = B := by
      unfold meanDim0; rw [List.length_map, List.length_range, hwt]
    have hlo : (meanDim0 output).length = B := by
      unfold meanDim0; rw [List.length_map, List.length_range, hwo]
    have hmt : ∀ j < B, (meanDim0 target).getD j 0
        = (∑ i ∈ Finset.range T, getE target i j) / (T : ℚ) := by
      intro j hj
      unfold meanDim0
      rw [getD_map' _ _ j 0 0 (by rw [List.length_range, hwt]; exact hj),
        List.getD_eq_getElem _ _ (by rw [List.length_range, hwt]; exact hj),
        List.getElem_range, colMean_eq ht j]
    have hmo : ∀ j < B, (meanDim0 output).getD j 0
        = (∑ i ∈ Finset.range T, getE output i j) / (T : ℚ) := by
      intro j hj
      unfold meanDim0
      rw [getD_map' _ _ j 0 0 (by rw [List.length_range, hwo]; exact hj),
        List.getD_eq_getElem _ _ (by rw [List.length_range, hwo]; exact hj),
        List.getElem_range, colMean_eq ho j]
    unfold qmean
    rw [sum_eq_range_getD]
    simp only [List.length_map, List.length_zipWith, hlt, hlo, min_self]
    congr 1
    refine Finset.sum_congr rfl fun j hj => ?_
    have hjB : j < B := Finset.mem_range.mp hj
    rw [getD_map' _ _ j 0 0 (by rw [List.length_zipWith, hlt, hlo, min_self]; exact hjB),
      getD_zipWith' _ _ _ j 0 0 0 (hlt ▸ hjB) (hlo ▸ hjB), hmt j hjB, hmo j hjB]
    ring
  show qmean ((List.zipWith (fun a b => a + -b)
      (meanDim0 target) (meanDim0 output)).map (fun a => a ^ 2))
        / (tmean (eltSq target) + eps) = _
  rw [hnum, energy_eq ht]

/-- Witness: `dc_formula` evaluated on a concrete 2×2 signal pair. -/
theorem dc_formula_witness :
    dcLoss [[1, 2], [3, 4]] [[5, 6], [7, 8]] =
      ((∑ j ∈ Finset.range 2,
          ((∑ i ∈ Finset.range 2, getE [[5, 6], [7, 8]] i j) / (2 : ℚ)
            - (∑ i ∈ Finset.range 2, getE [[1, 2], [3, 4]] i j) / (2 : ℚ)) ^ 2) / (2 : ℚ))
        / ((∑ i ∈ Finset.range 2, ∑ j ∈ Finset.range 2, getE [[5, 6], [7, 8]] i j ^ 2)
            / ((2 : ℚ) * 2) + eps) :=
  dc_formula [[1, 2], [3, 4]] [[5, 6], [7, 8]] 2 2 (by decide) (by decide) (by decide)

/-! ### Scaling lemmas for C8 -/

lemma flatten_map_map (f : ℚ → ℚ) (rows : Signal) :
    flatten (rows.map (List.map f)) = (flatten rows).map f := by
  unfold flatten
  rw [List.map_flatten]

lemma sum_map_const_mul (r : ℚ) (l : List ℚ) :
    (l.map (fun x => r * x)).sum = r * l.sum := by
  have h := List.sum_map_mul_left l id r
  simpa using h

lemma tmean_map_const_mul (r : ℚ) (rows : Signal) :
    tmean (rows.map (List.map (fun x => r * x))) = r * tmean rows := by
  unfold tmean qmean
  rw [flatten_map_map, sum_map_const_mul, List.length_map, mul_div_assoc]

lemma eltSq_eltSub_scale (c : ℚ) (t o : Signal) :
    eltSq (eltSub (scale c t) (scale c o))
      = (eltSq (eltSub t o)).map (List.map (fun x => c ^ 2 * x)) := by
  rw [eltSq_eltSub, eltSq_eltSub]
  unfold scale
  rw [List.zipWith_map_left, List.zipWith_map_right, List.map_zipWith]
  congr 1
  funext tr orow
  rw [List.zipWith_map_left, List.zipWith_map_right, List.map_zipWith]
  congr 1
  funext x y
  ring

lemma eltSq_scale (c : ℚ) (t : Signal) :
    eltSq (scale c t) = (eltSq t).map (List.map (fun x => c ^ 2 * x)) := by
  unfold eltSq scale
  rw [List.map_map, List.map_map]
  congr 1
  funext r
  simp only [Function.comp_apply]
  rw [List.map_map, List.map_map]
  congr 1
  funext x
  simp only [Function.comp_apply]
  ring

lemma esrNum_scale (c : ℚ) (o t : Signal) :
    esrNum (scale c o) (scale c t) = c ^ 2 * esrNum o t := by
  unfold esrNum
  rw [eltSq_eltSub_scale]
  exact tmean_map_const_mul _ _

lemma esrEnergy_scale (c : ℚ) (t : Signal) :
    esrEnergy (scale c t) = c ^ 2 * esrEnergy t := by
  unfold esrEnergy
  rw [eltSq_scale]
  exact tmean_map_const_mul _ _

lemma tmean_eltSq_nonneg (s : Signal) : 0 ≤ tmean (eltSq s) := by
  unfold tmean qmean
  apply div_nonneg
  · apply List.sum_nonneg
    intro x hx
    rw [flatten] at hx
    unfold eltSq at hx
    obtain ⟨r, hr, hxr⟩ := List.mem_flatten.mp hx
    obtain ⟨r0, hr0, rfl⟩ := List.mem_map.mp hr
    obtain ⟨y, hy, rfl⟩ := List.mem_map.mp hxr
    exact sq_nonneg y
  · exact Nat.cast_nonneg _

/-! ### C8: scale behavior of ESR -/

/-- C8 (amended): scaling both signals by `c` multiplies the ESR numerator and
the energy term by `c^2`, but the additive epsilon in the denominator does not
scale, so `ESR(c·o, c·t) = (c^2·num) / (c^2·energy + eps)`; this equals
`ESR(o, t)` exactly iff `c^2 = 1` or the numerator is zero. -/
theorem esr_scale (c : ℚ) (output target : Signal) :
    esrLoss (scale c output) (scale c target)
        = (c ^ 2 * esrNum output target) / (c ^ 2 * esrEnergy target + eps)
      ∧ (esrLoss (scale c output) (scale c target) = esrLoss output target
          ↔ c ^ 2 = 1 ∨ esrNum output target = 0) := by
  have h1 : esrLoss (scale c output) (scale c target)
      = (c ^ 2 * esrNum output target) / (c ^ 2 * esrEnergy target + eps) := by
    show esrNum (scale c output) (scale c target)
        / (esrEnergy (scale c target) + eps) = _
    rw [esrNum_scale, esrEnergy_scale]
  refine ⟨h1, ?_⟩
  have hE : 0 ≤ esrEnergy target := tmean_eltSq_nonneg target
  have hN : 0 ≤ esrNum output target := tmean_eltSq_nonneg (eltSub target output)
  have hd1 : (0 : ℚ) < esrEnergy target + eps := by unfold eps; linarith
  have hd2 : (0 : ℚ) < c ^ 2 * esrEnergy target + eps := by
    have := mul_nonneg (sq_nonneg c) hE
    unfold eps; linarith
  rw [h1]
  show (c ^ 2 * esrNum output target) / (c ^ 2 * esrEnergy target + eps)
      = esrNum output target / (esrEnergy target + eps) ↔ _
  rw [div_eq_div_iff hd2.ne' hd1.ne']
  constructor
  · intro h
    have hz : esrNum output target * eps * (c ^ 2 - 1) = 0 := by
      linear_combination h
    rcases mul_eq_zero.mp hz with h2 | h2
    · rcases mul_eq_zero.mp h2 with h3 | h3
      · right; exact h3
      · exfalso
        unfold eps at h3
        norm_num at h3
    · left; linarith
  · rintro (h | h)
    · rw [h]; ring
    · rw [h]; ring

/-- C8 counterexample: with `c = 2`, `output = [[0]]`, `target = [[1]]`, the
scaled and unscaled ESR values differ (the epsilon breaks exact invariance). -/
theorem esr_scale_counterexample :
    (2 : ℚ) ≠ 0 ∧
      esrLoss (scale 2 [[0]]) (scale 2 [[1]]) ≠ esrLoss [[0]] [[1]] := by
  refine ⟨by norm_num, ?_⟩
  simp [esrLoss, scale, eltSub, eltSq, tmean, qmean, flatten, eps]
  norm_num

/-! ### Spectral losses (C3, C9)

`torch.stft` and `torch.log` are external library routines, not code of this
repository, so the magnitude spectrogram `M fftSize hopSize signal` and the
elementwise logarithm `lg` are abstract parameters; every repository-level
operation (the epsilon floor, the two L1 terms, the per-resolution loop, the
final division) is translated from the source. -/

/-- `torch.where(mag <= eps, eps, mag)`: floor a magnitude at eps. -/
def floorEps (v : ℚ) : ℚ := if v ≤ eps then eps else v

/-- `F.l1_loss` with its default mean reduction: mean absolute difference. -/
def l1Loss (a b : List ℚ) : ℚ := qmean (List.zipWith (fun x y => |x - y|) a b)

/-- `SpecLoss.forward`: L1 distance of the magnitude spectra plus L1 distance
of their logarithms after flooring at eps. -/
def specLoss (M : ℕ → ℕ → List ℚ → List ℚ) (lg : ℚ → ℚ)
    (fftSize hopSize : ℕ) (output target : List ℚ) : ℚ :=
  let magx := M fftSize hopSize output
  let magy := M fftSize hopSize target
  let logx := magx.map (fun v => lg (floorEps v))
  let logy := magy.map (fun v => lg (floorEps v))
  l1Loss magx magy + l1Loss logx logy

/-- The default resolutions of `MultiSpecLoss`. -/
def fftSizes : List ℕ := [2048, 1024, 512, 256, 128]

/-- `MultiSpecLoss.__init__`: one `SpecLoss(size, size // 4)` per size. -/
def specLossPairs : List (ℕ × ℕ) := fftSizes.map (fun n => (n, n / 4))

/-- `MultiSpecLoss.forward` after the `squeeze()`: accumulate the loss of each
configured resolution and divide by the number of resolutions. -/
def multiSpecLoss (M : ℕ → ℕ → List ℚ → List ℚ) (lg : ℚ → ℚ)
    (output target : List ℚ) : ℚ :=
  (specLossPairs.foldl (fun acc p => acc + specLoss M lg p.1 p.2 output target) 0)
    / (fftSizes.length : ℚ)

/-- `MultiSpecLoss.forward` on a rank-3 single-channel signal: `squeeze()` of a
(time, 1, 1) tensor yields the flat time series, embedded as `flatten`. -/
def multiSpecForward (M : ℕ → ℕ → List ℚ → List ℚ) (lg : ℚ → ℚ)
    (output target : Signal) : ℚ :=
  multiSpecLoss M lg (flatten output) (flatten target)

/-! ### C3: the multi-resolution spectral loss formula -/

/-- C3: for single-channel signals, the multi-resolution spectral loss is the
arithmetic mean, over the five resolutions (2048, 1024, 512, 256, 128) each
with hopSize = fftSize/4, of the single-resolution loss; and each
single-resolution loss is the mean absolute difference of the magnitude
spectra plus the mean absolute difference of their logarithms after replacing
every magnitude ≤ 1e-5 with 1e-5. -/
theorem multispec_mean (M : ℕ → ℕ → List ℚ → List ℚ) (lg : ℚ → ℚ)
    (output target : Signal)
    (ho : ∀ r ∈ output, r.length = 1) (ht : ∀ r ∈ target, r.length = 1) :
    multiSpecForward M lg output target
        = (specLoss M lg 2048 512 (flatten output) (flatten target)
            + specLoss M lg 1024 256 (flatten output) (flatten target)
            + specLoss M lg 512 128 (flatten output) (flatten target)
            + specLoss M lg 256 64 (flatten output) (flatten target)
            + specLoss M lg 128 32 (flatten output) (flatten target)) / 5
      ∧ ∀ f h o t, specLoss M lg f h o t
          = qmean (List.zipWith (fun x y => |x - y|) (M f h o) (M f h t))
            + qmean (List.zipWith (fun x y => |x - y|)
                ((M f h o).map (fun v => lg (if v ≤ eps then eps else v)))
                ((M f h t).map (fun v => lg (if v ≤ eps then eps else v)))) := by
  constructor
  · unfold multiSpecForward multiSpecLoss
    simp only [specLossPairs, fftSizes, List.map_cons, List.map_nil,
      List.foldl_cons, List.foldl_nil, List.length_cons, List.length_nil]
    norm_num
  · intro f h o t
    rfl

/-- Witness: `multispec_mean` at a concrete magnitude function, logarithm and
single-channel signal pair. -/
theorem multispec_mean_witness :
    multiSpecForward (fun _ _ s => s) (fun v => v) [[1]] [[2]]
        = (specLoss (fun _ _ s => s) (fun v => v) 2048 512 (flatten [[1]]) (flatten [[2]])
            + specLoss (fun _ _ s => s) (fun v => v) 1024 256 (flatten [[1]]) (flatten [[2]])
            + specLoss (fun _ _ s => s) (fun v => v) 512 128 (flatten [[1]]) (flatten [[2]])
            + specLoss (fun _ _ s => s) (fun v => v) 256 64 (flatten [[1]]) (flatten [[2]])
            + specLoss (fun _ _ s => s) (fun v => v) 128 32 (flatten [[1]]) (flatten [[2]])) / 5
      ∧ ∀ f h o t, specLoss (fun _ _ s => s) (fun v => v) f h o t
          = qmean (List.zipWith (fun x y => |x - y|) o t)
            + qmean (List.zipWith (fun x y => |x - y|)
                (o.map (fun v => if v ≤ eps then eps else v))
                (t.map (fun v => if v ≤ eps then eps else v))) :=
  multispec_mean (fun _ _ s => s) (fun v => v) [[1]] [[2]] (by simp) (by simp)

/-! ### C9: identical signals give zero loss -/

lemma l1Loss_self (a : List ℚ) : l1Loss a a = 0 := by
  unfold l1Loss qmean
  rw [List.zipWith_same]
  simp

lemma specLoss_self (M : ℕ → ℕ → List ℚ → List ℚ) (lg : ℚ → ℚ)
    (f h : ℕ) (s : List ℚ) : specLoss M lg f h s s = 0 := by
  show l1Loss (M f h s) (M f h s)
      + l1Loss ((M f h s).map (fun v => lg (floorEps v)))
          ((M f h s).map (fun v => lg (floorEps v))) = 0
  rw [l1Loss_self, l1Loss_self, add_zero]

lemma esrLoss_self (S : Signal) : esrLoss S S = 0 := by
  show tmean (eltSq (eltSub S S)) / (tmean (eltSq S) + eps) = 0
  have h : eltSq (eltSub S S) = S.map (fun r => r.map (fun _ => (0 : ℚ))) := by
    rw [eltSq_eltSub, List.zipWith_same]
    congr 1
    funext r
    rw [List.zipWith_same]
    congr 1
    funext a
    ring
  rw [h]
  have h2 : tmean (S.map (fun r => r.map (fun _ => (0 : ℚ)))) = 0 := by
    unfold tmean qmean
    rw [flatten_map_map]
    simp
  rw [h2, zero_div]

lemma dcLoss_self (S : Signal) : dcLoss S S = 0 := by
  show qmean ((List.zipWith (fun a b => a + -b) (meanDim0 S) (meanDim0 S)).map
      (fun a => a ^ 2)) / (tmean (eltSq S) + eps) = 0
  rw [List.zipWith_same, List.map_map]
  have h : ((fun a => a ^ 2) ∘ fun a : ℚ => a + -a) = fun _ => (0 : ℚ) := by
    funext a
    simp only [Function.comp_apply]
    ring
  rw [h]
  unfold qmean
  simp

/-- C9: identical signals give exactly zero ESR and DC loss; and for any
single-channel signal longer than the largest configured window, zero
multi-resolution spectral loss. -/
theorem zero_loss_on_identical (S : Signal) (M : ℕ → ℕ → List ℚ → List ℚ)
    (lg : ℚ → ℚ) (S1 : List ℚ) (hlen : 2048 < S1.length) :
    esrLoss S S = 0 ∧ dcLoss S S = 0 ∧ multiSpecLoss M lg S1 S1 = 0 := by
  refine ⟨esrLoss_self S, dcLoss_self S, ?_⟩
  unfold multiSpecLoss
  simp [specLossPairs, fftSizes, specLoss_self]

/-- Witness: `zero_loss_on_identical` at a concrete signal and a concrete
2049-sample single-channel signal. -/
theorem zero_loss_on_identical_witness :
    esrLoss [[1]] [[1]] = 0 ∧ dcLoss [[1]] [[1]] = 0
      ∧ multiSpecLoss (fun _ _ s => s) (fun v => v)
          (List.replicate 2049 0) (List.replicate 2049 0) = 0 :=
  zero_loss_on_identical [[1]] (fun _ _ s => s) (fun v => v)
    (List.replicate 2049 0) (by rw [List.length_replicate]; norm_num)

/-! ### PreEmph (C5)

`nn.Conv1d(1, 1, k)` with stride 1, no padding and no bias computes the
cross-correlation `out[i] = sum_j w[j] * x[i+j]` with `len(x) + 1 - len(w)`
outputs (the declared kernel size 2 is irrelevant: the source overwrites
`weight.data` with a (1, 1, len(filter_cfs)) tensor and PyTorch convolves with
the actual weight shape).  The filter acts along the time axis independently
on every (batch, channel) position, so it is embedded on the per-position
time series and lifted to whole signals column-wise. -/

/-- The value of the convolution on its domain (`w.length ≤ x.length`). -/
def conv1dRaw (w x : List ℚ) : List ℚ :=
  (List.range (x.length + 1 - w.length)).map
    (fun i => ((List.range w.length).map (fun j => w.getD j 0 * x.getD (i + j) 0)).sum)

/-- The convolution as PyTorch performs it: when the kernel is longer than the
input (output size would be < 1), `nn.Conv1d` raises a RuntimeError. -/
def conv1d (w x : List ℚ) : Except String (List ℚ) :=
  if x.length < w.length then
    .error "RuntimeError: kernel size cannot be greater than the input size"
  else .ok (conv1dRaw w x)

/-- The fixed low-pass taps `[0.85, 1]`. -/
def lpTaps : List ℚ := [17 / 20, 1]

/-- `PreEmph.forward` on the time series of one (batch, channel) position:
front-pad with `len(filter_cfs) - 1` zeros, convolve with the pre-emphasis
taps, and, when the low-pass flag is set, convolve the result with the
low-pass taps (the source adds no padding before the low-pass stage, and
either convolution propagates the RuntimeError of an undersized input). -/
def preEmphForward (cfs : List ℚ) (lowPass : Bool) (x : List ℚ) :
    Except String (List ℚ) :=
  match conv1d cfs (List.replicate (cfs.length - 1) 0 ++ x) with
  | .error e => .error e
  | .ok y => if lowPass then conv1d lpTaps y else .ok y

/-- The error-free value of `preEmphForward` on inputs where neither
convolution raises. -/
def preEmphForwardRaw (cfs : List ℚ) (lowPass : Bool) (x : List ℚ) : List ℚ :=
  if lowPass then
    conv1dRaw lpTaps (conv1dRaw cfs (List.replicate (cfs.length - 1) 0 ++ x))
  else conv1dRaw cfs (List.replicate (cfs.length - 1) 0 ++ x)

/-- The per-(batch, channel) time series of a signal. -/
def colsOf (s : Signal) : List (List ℚ) :=
  (List.range (width s)).map (fun j => s.map (fun r => r.getD j 0))

/-- Reassemble a time-major signal from per-position time series. -/
def fromCols (c : List (List ℚ)) : Signal :=
  (List.range ((c.headD []).length)).map (fun i => c.map (fun col => col.getD i 0))

/-- Error-propagating map over a list of columns. -/
def mapExcept {α β : Type _} (f : α → Except String β) :
    List α → Except String (List β)
  | [] => .ok []
  | a :: as =>
    match f a with
    | .error e => .error e
    | .ok b =>
      match mapExcept f as with
      | .error e => .error e
      | .ok bs => .ok (b :: bs)

/-- `PreEmph.forward` on a full (time × batch·channel) signal: the filter acts
along the time axis on every (batch, channel) position, and any RuntimeError
of the underlying convolution propagates. -/
def preEmphSignal (cfs : List ℚ) (lowPass : Bool) (s : Signal) :
    Except String Signal :=
  match mapExcept (preEmphForward cfs lowPass) (colsOf s) with
  | .error e => .error e
  | .ok cols => .ok (fromCols cols)

/-- The error-free value of `preEmphSignal` where no convolution raises. -/
def preEmphSignalRaw (cfs : List ℚ) (lowPass : Bool) (s : Signal) : Signal :=
  fromCols ((colsOf s).map (preEmphForwardRaw cfs lowPass))

lemma conv1dRaw_length (w x : List ℚ) :
    (conv1dRaw w x).length = x.length + 1 - w.length := by
  unfold conv1dRaw
  rw [List.length_map, List.length_range]

lemma conv1d_ok (w x : List ℚ) (h : w.length ≤ x.length) :
    conv1d w x = Except.ok (conv1dRaw w x) := by
  unfold conv1d
  rw [if_neg (by omega)]

lemma conv1d_err (w x : List ℚ) (h : x.length < w.length) :
    conv1d w x
      = Except.error "RuntimeError: kernel size cannot be greater than the input size" := by
  unfold conv1d
  rw [if_pos h]

lemma preEmphForwardRaw_length (cfs : List ℚ) (x : List ℚ) (h : 1 ≤ cfs.length) :
    (preEmphForwardRaw cfs false x).length = x.length := by
  show (conv1dRaw cfs (List.replicate (cfs.length - 1) 0 ++ x)).length = x.length
  rw [conv1dRaw_length, List.length_append, List.length_replicate]
  omega

lemma preEmphForwardRaw_lp_length (cfs : List ℚ) (x : List ℚ) (h : 1 ≤ cfs.length) :
    (preEmphForwardRaw cfs true x).length = x.length - 1 := by
  show (conv1dRaw lpTaps (conv1dRaw cfs (List.replicate (cfs.length - 1) 0 ++ x))).length = _
  have hlp : lpTaps.length = 2 := rfl
  rw [conv1dRaw_length, conv1dRaw_length, List.length_append, List.length_replicate, hlp]
  omega

lemma preEmphForward_ok_noLp (cfs x : List ℚ)
    (hc : 1 ≤ cfs.length) (hx : 1 ≤ x.length) :
    preEmphForward cfs false x = Except.ok (preEmphForwardRaw cfs false x) := by
  unfold preEmphForward
  rw [conv1d_ok _ _ (by rw [List.length_append, List.length_replicate]; omega)]
  rfl

lemma preEmphForward_ok_lp (cfs x : List ℚ)
    (hc : 1 ≤ cfs.length) (hx : 2 ≤ x.length) :
    preEmphForward cfs true x = Except.ok (preEmphForwardRaw cfs true x) := by
  unfold preEmphForward
  rw [conv1d_ok _ _ (by rw [List.length_append, List.length_replicate]; omega)]
  show conv1d lpTaps (conv1dRaw cfs (List.replicate (cfs.length - 1) 0 ++ x)) = _
  have hy : lpTaps.length ≤ (conv1dRaw cfs (List.replicate (cfs.length - 1) 0 ++ x)).length := by
    rw [conv1dRaw_length, List.length_append, List.length_replicate]
    have hlp : lpTaps.length = 2 := rfl
    omega
  rw [conv1d_ok _ _ hy]
  rfl

lemma preEmphForward_err_lp (cfs x : List ℚ)
    (hc : 1 ≤ cfs.length) (hx : x.length = 1) :
    ∃ e, preEmphForward cfs true x = Except.error e := by
  refine ⟨"RuntimeError: kernel size cannot be greater than the input size", ?_⟩
  unfold preEmphForward
  rw [conv1d_ok _ _ (by rw [List.length_append, List.length_replicate]; omega)]
  show conv1d lpTaps (conv1dRaw cfs (List.replicate (cfs.length - 1) 0 ++ x)) = _
  apply conv1d_err
  rw [conv1dRaw_length, List.length_append, List.length_replicate]
  have hlp : lpTaps.length = 2 := rfl
  omega

lemma mapExcept_ok_pointwise {α β : Type _} (f : α → Except String β)
    (g : α → β) (l : List α) (h : ∀ a ∈ l, f a = Except.ok (g a)) :
    mapExcept f l = Except.ok (l.map g) := by
  induction l with
  | nil => rfl
  | cons a as ih =>
    unfold mapExcept
    rw [h a (List.mem_cons_self ..),
      ih (fun x hx => h x (List.mem_cons_of_mem _ hx)), List.map_cons]

lemma mapExcept_err_of_all {α β : Type _} (f : α → Except String β) (l : List α)
    (hne : l ≠ []) (h : ∀ a ∈ l, ∃ e, f a = Except.error e) :
    ∃ e, mapExcept f l = Except.error e := by
  cases l with
  | nil => exact absurd rfl hne
  | cons a as =>
    obtain ⟨e, he⟩ := h a (List.mem_cons_self ..)
    exact ⟨e, by unfold mapExcept; rw [he]⟩

lemma preEmphSignal_ok (cfs : List ℚ) (lp : Bool) (s : Signal)
    (h : ∀ c ∈ colsOf s,
      preEmphForward cfs lp c = Except.ok (preEmphForwardRaw cfs lp c)) :
    preEmphSignal cfs lp s = Except.ok (preEmphSignalRaw cfs lp s) := by
  unfold preEmphSignal preEmphSignalRaw
  rw [mapExcept_ok_pointwise _ _ _ h]

lemma colsOf_mem_length (s : Signal) : ∀ c ∈ colsOf s, c.length = s.length := by
  intro c hc
  unfold colsOf at hc
  obtain ⟨j, _, rfl⟩ := List.mem_map.mp hc
  exact List.length_map _ _

lemma headD_eq_getD {α : Type _} (l : List α) (d : α) : l.headD d = l.getD 0 d := by
  cases l <;> rfl

lemma preEmphSignalRaw_length_eq (cfs : List ℚ) (lp : Bool) (s : Signal)
    (hw : 0 < width s) :
    (preEmphSignalRaw cfs lp s).length
      = (preEmphForwardRaw cfs lp (s.map (fun r => r.getD 0 0))).length := by
  unfold preEmphSignalRaw fromCols
  rw [List.length_map, List.length_range, headD_eq_getD]
  congr 2
  have h1 : 0 < (colsOf s).length := by
    unfold colsOf
    rw [List.length_map, List.length_range]
    exact hw
  rw [getD_map' _ _ 0 [] [] h1]
  congr 1
  unfold colsOf
  rw [getD_map' _ _ 0 [] 0 (by rw [List.length_range]; exact hw),
    List.getD_eq_getElem _ _ (by rw [List.length_range]; exact hw), List.getElem_range]

/-! ### C5: length and error behavior of the pre-emphasis filter -/

/-- C5 (amended): for a filter with at least 2 taps on a nonempty
single-channel signal, the pre-emphasis stage alone succeeds and preserves the
time-axis length; with the low-pass option enabled, filtering succeeds exactly
on inputs of at least 2 time steps and the output is then one time step
shorter than the input (the source adds no padding before the low-pass
convolution), while on a 1-step input the cascaded low-pass convolution
raises a RuntimeError. -/
theorem preemph_length (cfs : List ℚ) (s : Signal)
    (hc : 2 ≤ cfs.length) (hw : 0 < width s) :
    (∃ y, preEmphSignal cfs false s = Except.ok y ∧ y.length = s.length)
      ∧ (2 ≤ s.length →
          ∃ y, preEmphSignal cfs true s = Except.ok y ∧ y.length = s.length - 1)
      ∧ (s.length = 1 →
          ∃ e, preEmphSignal cfs true s = Except.error e) := by
  have hc1 : 1 ≤ cfs.length := by omega
  have hsne : s ≠ [] := by
    intro hnil
    rw [hnil] at hw
    exact Nat.lt_irrefl 0 hw
  have hs1 : 1 ≤ s.length := List.length_pos.mpr hsne
  refine ⟨?_, ?_, ?_⟩
  · refine ⟨preEmphSignalRaw cfs false s, preEmphSignal_ok _ _ _ ?_, ?_⟩
    · intro c hcol
      exact preEmphForward_ok_noLp cfs c hc1
        (by rw [colsOf_mem_length s c hcol]; exact hs1)
    · rw [preEmphSignalRaw_length_eq cfs false s hw,
        preEmphForwardRaw_length _ _ hc1, List.length_map]
  · intro h2
    refine ⟨preEmphSignalRaw cfs true s, preEmphSignal_ok _ _ _ ?_, ?_⟩
    · intro c hcol
      exact preEmphForward_ok_lp cfs c hc1
        (by rw [colsOf_mem_length s c hcol]; exact h2)
    · rw [preEmphSignalRaw_length_eq cfs true s hw,
        preEmphForwardRaw_lp_length _ _ hc1, List.length_map]
  · intro h1
    have hne : colsOf s ≠ [] := by
      have hlen : (colsOf s).length = width s := by
        unfold colsOf
        rw [List.length_map, List.length_range]
      intro hnil
      rw [hnil] at hlen
      rw [← hlen] at hw
      exact Nat.lt_irrefl 0 hw
    obtain ⟨e, he⟩ := mapExcept_err_of_all (preEmphForward cfs true) (colsOf s) hne
      (fun c hcol => preEmphForward_err_lp cfs c hc1
        (by rw [colsOf_mem_length s c hcol]; exact h1))
    exact ⟨e, by unfold preEmphSignal; rw [he]⟩

/-- Witness: `preemph_length` with the 2-tap filter `[1, -0.85]` on a
3-step signal. -/
theorem preemph_length_witness :
    (∃ y, preEmphSignal [1, -17/20] false [[1], [2], [3]] = Except.ok y
        ∧ y.length = 3)
      ∧ (2 ≤ ([[1], [2], [3]] : Signal).length →
          ∃ y, preEmphSignal [1, -17/20] true [[1], [2], [3]] = Except.ok y
            ∧ y.length = 2)
      ∧ (([[1], [2], [3]] : Signal).length = 1 →
          ∃ e, preEmphSignal [1, -17/20] true [[1], [2], [3]] = Except.error e) :=
  preemph_length [1, -17/20] [[1], [2], [3]] (by norm_num) (by norm_num [width])

/-- C5 counterexample: with the 2-tap filter `[1, -0.85]`, low-pass enabled,
and 4 input time steps, filtering succeeds but the result has only 3 time
steps, not 4. -/
theorem preemph_length_counterexample :
    (2 : ℕ) ≤ ([1, -17/20] : List ℚ).length
      ∧ ([[1], [2], [3], [4]] : Signal).length = 4
      ∧ ∃ y, preEmphSignal [1, -17/20] true [[1], [2], [3], [4]] = Except.ok y
          ∧ y.length = 3 :=
  ⟨by norm_num, rfl,
    ⟨preEmphSignalRaw [1, -17/20] true [[1], [2], [3], [4]], rfl, rfl⟩⟩

/-! ### LossWrapper (C4, C6, C10) -/

/-- The metric objects `LossWrapper.__init__` can place in `loss_functions`. -/
inductive MetricKind where
  | esr : MetricKind
  | dc : MetricKind
  | esrPre : List ℚ → MetricKind
deriving DecidableEq

/-- Evaluation of one metric object on a signal pair.  `esrPre` is the closure
`lambda output, target: loss_dict['ESR'].forward(*pre_filt(output, target))`:
ESR on the pre-emphasis-filtered pair (that `PreEmph` keeps the default
`low_pass=0`, so on nonempty inputs the filter does not raise and its value is
`preEmphSignalRaw`; the raising behavior itself is modeled by
`preEmphSignal`). -/
def evalMetric : MetricKind → Signal → Signal → ℚ
  | .esr, o, t => esrLoss o t
  | .dc, o, t => dcLoss o t
  | .esrPre cfs, o, t =>
      esrLoss (preEmphSignalRaw cfs false o) (preEmphSignalRaw cfs false t)

/-- Python truthiness of the `pre_filt` argument (`if pre_filt:`): `None` and
the empty list are falsy. -/
def preFiltTruthy : Option (List ℚ) → Bool
  | none => false
  | some l => !l.isEmpty

/-- `loss_dict[key]`: the dict holds `ESR` and `DC`, plus `ESRPre` when a
truthy `pre_filt` was supplied; any other key raises `KeyError`. -/
def lookupLoss (preFilt : Option (List ℚ)) (key : String) :
    Except String MetricKind :=
  if key = "ESR" then .ok .esr
  else if key = "DC" then .ok .dc
  else if key = "ESRPre" then
    match preFilt with
    | some cfs =>
        if cfs.isEmpty then .error ("KeyError: " ++ key) else .ok (.esrPre cfs)
    | none => .error ("KeyError: " ++ key)
  else .error ("KeyError: " ++ key)

/-- The state built by `LossWrapper.__init__`: the `(metric, weight)` pairs in
insertion order (the source stores them as two parallel equal-length tuples). -/
structure LWState where
  fns : List (MetricKind × ℚ)
deriving DecidableEq

/-- The list comprehension `[[loss_dict[key], value] for key, value in
losses.items()]`: resolve keys left to right, first unknown key raises. -/
def resolveLosses (preFilt : Option (List ℚ)) :
    List (String × ℚ) → Except String (List (MetricKind × ℚ))
  | [] => .ok []
  | kv :: rest =>
    match lookupLoss preFilt kv.1 with
    | .error e => .error e
    | .ok m =>
      match resolveLosses preFilt rest with
      | .error e => .error e
      | .ok ms => .ok ((m, kv.2) :: ms)

/-- `LossWrapper.__init__`. -/
def lossWrapperInit (losses : List (String × ℚ)) (preFilt : Option (List ℚ)) :
    Except String LWState :=
  match resolveLosses preFilt losses with
  | .error e => .error e
  | .ok fns => .ok ⟨fns⟩

/-- `LossWrapper.forward`: running sum of `metric(output, target) * weight`. -/
def lossWrapperForward (st : LWState) (output target : Signal) : ℚ :=
  st.fns.foldl (fun acc p => acc + evalMetric p.1 output target * p.2) 0

/-- The record built by `PreEmph.__init__`: the taps, `zPad = len - 1` and the
low-pass flag; the source performs no validation and never raises. -/
structure PreEmphState where
  cfs : List ℚ
  zPad : ℕ
  lowPass : Bool
deriving DecidableEq

/-- `PreEmph.__init__`. -/
def preEmphInit (cfs : List ℚ) (lowPass : Bool) : Except String PreEmphState :=
  .ok ⟨cfs, cfs.length - 1, lowPass⟩

/-- The metric keys available at construction: ESR and DC always, plus ESRPre
when a truthy pre-emphasis coefficient list is supplied. -/
def allowedKeys (preFilt : Option (List ℚ)) : List String :=
  if preFiltTruthy preFilt then ["ESR", "DC", "ESRPre"] else ["ESR", "DC"]

/-! ### C4: the aggregator is a weighted sum -/

lemma foldl_add_eq_sum {α : Type _} (f : α → ℚ) (l : List α) (a : ℚ) :
    l.foldl (fun acc x => acc + f x) a = a + (l.map f).sum := by
  induction l generalizing a with
  | nil => simp
  | cons p ps ih =>
    rw [List.foldl_cons, ih, List.map_cons, List.sum_cons]
    ring

/-- C4: `LossWrapper.forward` returns the sum over the selected metrics of
weight × metric(output, target); in particular an aggregator built from
{ESR: 0.5, DC: 0.5} evaluates to 0.5·ESR + 0.5·DC exactly. -/
theorem losswrapper_weighted_sum :
    (∀ (st : LWState) (output target : Signal),
      lossWrapperForward st output target
        = (st.fns.map (fun p => p.2 * evalMetric p.1 output target)).sum)
    ∧ ∀ (st : LWState) (output target : Signal),
        lossWrapperInit [("ESR", 1/2), ("DC", 1/2)] none = Except.ok st →
        lossWrapperForward st output target
          = 1/2 * esrLoss output target + 1/2 * dcLoss output target := by
  constructor
  · intro st o t
    unfold lossWrapperForward
    rw [foldl_add_eq_sum (fun p : MetricKind × ℚ => evalMetric p.1 o t * p.2),
      zero_add]
    congr 1
    apply List.map_congr_left
    intro p _
    ring
  · intro st o t h
    have hinit : lossWrapperInit [("ESR", 1/2), ("DC", 1/2)] none
        = Except.ok (⟨[(.esr, 1/2), (.dc, 1/2)]⟩ : LWState) := rfl
    rw [hinit] at h
    injection h with h2
    rw [← h2]
    show 0 + esrLoss o t * (1/2) + dcLoss o t * (1/2) = _
    ring

/-- Witness: `losswrapper_weighted_sum` on the state built from the
{ESR: 0.5, DC: 0.5} spec and a concrete signal pair. -/
theorem losswrapper_weighted_sum_witness :
    lossWrapperForward ⟨[(.esr, 1/2), (.dc, 1/2)]⟩ [[1]] [[2]]
      = 1/2 * esrLoss [[1]] [[2]] + 1/2 * dcLoss [[1]] [[2]] :=
  losswrapper_weighted_sum.2 ⟨[(.esr, 1/2), (.dc, 1/2)]⟩ [[1]] [[2]] rfl

/-! ### C6: construction-time errors -/

lemma lookupLoss_ok_iff (preFilt : Option (List ℚ)) (key : String) :
    (∃ m, lookupLoss preFilt key = Except.ok m) ↔ key ∈ allowedKeys preFilt := by
  cases preFilt with
  | none =>
    unfold lookupLoss allowedKeys preFiltTruthy
    split_ifs with h1 h2 h3 <;> simp_all
  | some cfs =>
    unfold lookupLoss allowedKeys preFiltTruthy
    by_cases hc : cfs.isEmpty <;>
      split_ifs with h1 h2 h3 <;> simp_all

lemma resolveLosses_ok_iff (preFilt : Option (List ℚ))
    (losses : List (String × ℚ)) :
    (∃ ms, resolveLosses preFilt losses = Except.ok ms)
      ↔ ∀ kv ∈ losses, kv.1 ∈ allowedKeys preFilt := by
  induction losses with
  | nil => simp [resolveLosses]
  | cons kv rest ih =>
    constructor
    · rintro ⟨ms, hms⟩
      unfold resolveLosses at hms
      intro x hx
      cases hl : lookupLoss preFilt kv.1 with
      | error e => rw [hl] at hms; exact Except.noConfusion hms
      | ok m =>
        rw [hl] at hms
        rcases List.mem_cons.mp hx with rfl | hx'
        · exact (lookupLoss_ok_iff preFilt x.1).mp ⟨m, hl⟩
        · cases hr : resolveLosses preFilt rest with
          | error e => rw [hr] at hms; exact Except.noConfusion hms
          | ok ms2 => exact (ih.mp ⟨ms2, hr⟩) x hx'
    · intro hall
      obtain ⟨m, hm⟩ := (lookupLoss_ok_iff preFilt kv.1).mpr
        (hall kv (List.mem_cons_self ..))
      obtain ⟨ms, hms⟩ := ih.mpr (fun x hx => hall x (List.mem_cons_of_mem _ hx))
      refine ⟨(m, kv.2) :: ms, ?_⟩
      unfold resolveLosses
      rw [hm, hms]

/-- C6 (amended): `LossWrapper` construction fails exactly when some requested
key is outside the available set — {ESR, DC}, plus ESRPre when truthy
pre-emphasis coefficients are supplied (so ESRPre without coefficients fails);
the filter constructor itself performs no validation and accepts coefficient
sequences of any length, including fewer than 2 taps, without raising. -/
theorem losswrapper_config_errors :
    (∀ (losses : List (String × ℚ)) (preFilt : Option (List ℚ)),
      (∃ st, lossWrapperInit losses preFilt = Except.ok st)
        ↔ ∀ kv ∈ losses, kv.1 ∈ allowedKeys preFilt)
    ∧ ∀ (cfs : List ℚ) (lp : Bool), ∃ ps, preEmphInit cfs lp = Except.ok ps := by
  constructor
  · intro losses preFilt
    rw [← resolveLosses_ok_iff preFilt losses]
    unfold lossWrapperInit
    constructor
    · rintro ⟨st, hst⟩
      cases hr : resolveLosses preFilt losses with
      | error e => rw [hr] at hst; exact Except.noConfusion hst
      | ok ms => exact ⟨ms, rfl⟩
    · rintro ⟨ms, hms⟩
      rw [hms]
      exact ⟨⟨ms⟩, rfl⟩
  · intro cfs lp
    exact ⟨⟨cfs, cfs.length - 1, lp⟩, rfl⟩

/-- C6 counterexample: a 1-tap coefficient list is accepted — the filter
constructor returns normally and an aggregator requesting ESRPre with it is
built without any error. -/
theorem losswrapper_config_counterexample :
    ([(1 : ℚ)]).length < 2
      ∧ preEmphInit [(1 : ℚ)] false = Except.ok ⟨[(1 : ℚ)], 0, false⟩
      ∧ lossWrapperInit [("ESRPre", 1)] (some [(1 : ℚ)])
          = Except.ok ⟨[(.esrPre [(1 : ℚ)], 1)]⟩ := by
  refine ⟨by norm_num, rfl, rfl⟩

/-! ### C10: the empty loss spec -/

/-- C10: an aggregator built from an empty spec is constructed without error
and its forward evaluation is exactly 0 on every input pair. -/
theorem empty_losswrapper :
    lossWrapperInit [] none = Except.ok ⟨[]⟩
      ∧ ∀ (output target : Signal), lossWrapperForward ⟨[]⟩ output target = 0 :=
  ⟨rfl, fun _ _ => rfl⟩

/-! ### Shape handling (C7)

To settle the shape-mismatch behavior the tensor level matters: PyTorch
elementwise operations broadcast.  `torch.add(target, -output)` raises a
RuntimeError only when the two shapes are not broadcast-compatible; when they
are compatible but different it silently broadcasts, and the subsequent
`pow`, `mean` and `div` never raise.  This embedding carries explicit shapes
with row-major flattened data. -/

end AudioDL
